import Mathlib

/-!
Verification of the commitlint-rs core (`src/main.rs`) against its
natural-language specification.

Modelling conventions:
* Rust `String` values are embedded as `List Char`; span offsets are
  character indices into the raw message (the source uses byte offsets,
  which coincide for the reasoning done here).
* `miette::Report` values built by the `miette!` macro are embedded as a
  record of the fields the macro receives (severity, labels, help, code,
  url, message, source code).
* The `parser` module is not part of the provided sources; `parse_commit`
  and the `Commit`/`Scoped` data model are modelled from the spec where
  needed (see the doc comments below).
-/

set_option autoImplicit false

namespace Commitlint

/-- `Severity` from `src/main.rs`: `Off`, `Warning`, `Error`. -/
inductive Severity
  | Off
  | Warning
  | Error
deriving DecidableEq

/-- `Condition` from `src/main.rs`: `Never`, `Always`. -/
inductive Condition
  | Never
  | Always
deriving DecidableEq

/-- `type ScopeEnumOpts = (Severity, Condition, Vec<String>)` from `src/main.rs`. -/
abbrev ScopeEnumOpts := Severity × Condition × List (List Char)

/-- A source span: start and end offsets into the raw message.
`stop` stands for the Rust field `end` (a Lean keyword). -/
structure Span where
  start : Nat
  stop : Nat
deriving DecidableEq

/-- Modelled from the spec: `Scoped<String>` — a token paired with the span
it was lexed from (spec §3). -/
structure Scoped where
  text : List Char
  span : Span
deriving DecidableEq

/-- Modelled from the spec: the `Commit` structure (spec §3). The parser
module is missing from the sources; the fields used by `rule_scope_enum`
(`raw`, `scope`) plus the other header fields are modelled. `footers` are
omitted: their grammar is flagged as under-specified by the spec (§9) and
no claim touches them, so `breaking` here reflects only the header `!`
marker and `body` is the raw remainder after the header line. -/
structure Commit where
  raw : List Char
  type_ : Option Scoped
  scope : Option Scoped
  breaking : Bool
  description : Scoped
  body : Option (List Char)
deriving DecidableEq

/-- `miette::Severity` values used by the `miette!` call in `rule_scope_enum`. -/
inductive MietteSeverity
  | Advice
  | Warning
  | Error
deriving DecidableEq

/-- `miette::LabeledSpan` as built by `LabeledSpan::at(range, label)`. -/
structure LabeledSpan where
  start : Nat
  stop : Nat
  label : List Char
deriving DecidableEq

/-- The `miette::Report` built by the `miette!` macro in `rule_scope_enum`,
embedded as the record of fields the macro receives, together with the
source code attached by `with_source_code`. -/
structure Report where
  severity : MietteSeverity
  labels : List LabeledSpan
  help : List Char
  code : List Char
  url : List Char
  message : List Char
  source_code : List Char
deriving DecidableEq

/-- `Vec::join(", ")` on a vector of strings. -/
def joinSep (sep : List Char) : List (List Char) → List Char
  | [] => []
  | [x] => x
  | x :: y :: xs => x ++ sep ++ joinSep sep (y :: xs)

/-- `rule_scope_enum` from `src/main.rs`, lines 8–49, transliterated. -/
def rule_scope_enum (commit : Commit) (opts : ScopeEnumOpts) : Option Report :=
  let severity := opts.1
  let condition := opts.2.1
  let scopes := opts.2.2
  if severity = Severity.Off then
    none
  else
    match commit.scope with
    | some scope =>
      let is_in_scopes := scopes.contains scope.text
      let is_valid :=
        match condition with
        | Condition.Never => !is_in_scopes
        | Condition.Always => is_in_scopes
      if !is_valid then
        some
          { severity :=
              match severity with
              | Severity.Warning => MietteSeverity.Warning
              | Severity.Error => MietteSeverity.Error
              | Severity.Off => MietteSeverity.Advice
            labels := [⟨scope.span.start, scope.span.stop, "not allowed scope".toList⟩]
            help :=
              "scope must".toList ++
                (match condition with
                  | Condition.Never => " not".toList
                  | Condition.Always => []) ++
                " be one of ".toList ++ joinSep ", ".toList scopes
            code := "rule/scope-enum".toList
            url := "https://example.com".toList
            message := "Scope not allowed".toList
            source_code := commit.raw }
      else
        none
    | none => none

/-- Modelled from the spec: scope lexing inside the header (spec §4.1,
step 2). At position `pos` (just after the type token), a `(` opens a
scope: the scope text runs to the matching `)`. An unbalanced `(` (no
closing paren) yields `none`, which makes the parser fall back to the
whole-line description. Without a `(` there is no scope and the position
is unchanged. Returns `(scope, position after the scope part)`. -/
def scanScope (header : List Char) (pos : Nat) : Option (Option Scoped × Nat) :=
  match header.drop pos with
  | '(' :: _ =>
    let sc := (header.drop (pos + 1)).takeWhile (fun c => !(c == ')'))
    if ((header.drop (pos + 1)).drop sc.length).head? == some ')' then
      some (some ⟨sc, ⟨pos + 1, pos + 1 + sc.length⟩⟩, pos + 1 + sc.length + 1)
    else
      none
  | _ => some (none, pos)

/-- Modelled from the spec: the `": "` separator and description (spec
§4.1, step 2). If `": "` stands at `pos`, everything after it is the
description, spanning to the end of the header line. -/
def scanDescription (header : List Char) (pos : Nat) : Option Scoped :=
  match header.drop pos with
  | ':' :: ' ' :: _ => some ⟨header.drop (pos + 2), ⟨pos + 2, header.length⟩⟩
  | _ => none

/-- Modelled from the spec: the graceful-degradation result (spec §4.1) —
a header not matching the conventional grammar still yields a `Commit`,
with `type_`/`scope` absent and the description covering the whole first
line. -/
def fallbackCommit (raw header : List Char) (body : Option (List Char)) : Commit :=
  { raw := raw, type_ := none, scope := none, breaking := false,
    description := ⟨header, ⟨0, header.length⟩⟩, body := body }

/-- Modelled from the spec: the last step of header assembly (spec §4.1,
step 2) — everything after the `": "` separator at `afterBang` is the
description; a missing separator falls back to the whole-line
description. -/
def assembleDesc (raw header ty : List Char) (scopeOpt : Option Scoped)
    (breaking : Bool) (afterBang : Nat) (body : Option (List Char)) : Commit :=
  match scanDescription header afterBang with
  | some desc =>
    { raw := raw, type_ := some ⟨ty, ⟨0, ty.length⟩⟩, scope := scopeOpt,
      breaking := breaking, description := desc, body := body }
  | none => fallbackCommit raw header body

/-- Modelled from the spec: header assembly (spec §4.1, step 2). After the
type token, parse the optional scope, the optional `!` breaking marker and
the `": "`-separated description; any failure falls back to the
whole-line description. -/
def assemble (raw header ty : List Char) (body : Option (List Char)) : Commit :=
  match scanScope header ty.length with
  | some (scopeOpt, afterScope) =>
    match header.drop afterScope with
    | '!' :: _ => assembleDesc raw header ty scopeOpt true (afterScope + 1) body
    | _ => assembleDesc raw header ty scopeOpt false afterScope body
  | none => fallbackCommit raw header body

/-- Modelled from the spec: `parse_commit(raw: &str) -> Commit` (spec
§4.1). The header is the first line; its grammar is
`type(scope)!: description` with `(scope)` and `!` optional. The type is
the longest run of non-`(`, non-`:`, non-`!` characters; when the
`": "` separator (or the closing paren of a scope) is missing the whole
line becomes the description and `type_`/`scope` are absent. Every token
records its exact offsets in `raw`. Footers are not modelled (spec §9
leaves their grammar open and no claim concerns them), so `body` is the
raw remainder after the header line and `breaking` comes from the header
`!` marker only. -/
def parse_commit (raw : List Char) : Commit :=
  let header := raw.takeWhile (fun c => !(c == '\n'))
  let remainder := raw.drop (header.length + 1)
  let body := if remainder.isEmpty then none else some remainder
  let ty := header.takeWhile (fun c => !(c == '(' || c == ':' || c == '!'))
  assemble raw header ty body

/-- Rust `raw[s..e]` on our character-list strings. -/
def listExtract (l : List Char) (s e : Nat) : List Char :=
  (l.drop s).take (e - s)

/-- The fixed commit message from `main` (`src/main.rs` line 93). -/
def commit_message : List Char :=
  "feat(nice): add cool feature\n\nsome body\n\nsecond body line\n\nsome footer".toList

/-- `main` from `src/main.rs`, lines 92–117, restricted to its core
control flow: parse the fixed message, evaluate `rule_scope_enum` with
the externally loaded scope-enum options, and return `Err(report)` on
`Some(report)`, `Ok(())` otherwise. Config loading and printing are
external I/O glue; the resolved options are taken as the argument. -/
def main_result (scope_enum : ScopeEnumOpts) : Except Report Unit :=
  let commit := parse_commit commit_message
  match rule_scope_enum commit scope_enum with
  | some report => Except.error report
  | none => Except.ok ()

/-- The process exit code contract of `fn main() -> Result<()>`: an `Ok`
return exits successfully, an `Err` return exits with a failure code. -/
def exitsSuccessfully (scope_enum : ScopeEnumOpts) : Bool :=
  match main_result scope_enum with
  | Except.ok _ => true
  | Except.error _ => false

/-! ### Helper lemmas -/

theorem contains_eq_mem_decide (l : List (List Char)) (x : List Char) :
    l.contains x = decide (x ∈ l) := by
  simp [List.contains]

theorem front_drop (n : Nat) :
    ∀ {l₁ l₂ : List Char}, l₁ <+: l₂ → l₁.drop n <+: l₂.drop n := by
  induction n with
  | zero => intro l₁ l₂ h; simpa using h
  | succ n ih =>
    intro l₁ l₂ h
    match l₁, h with
    | [], _ => simp
    | a :: as, h =>
      obtain ⟨t, rfl⟩ := h
      simpa using ih (List.prefix_append as t)

theorem listExtract_eq {x l : List Char} {s : Nat} (h : x <+: l.drop s) :
    listExtract l s (s + x.length) = x := by
  unfold listExtract
  rw [Nat.add_sub_cancel_left]
  exact (List.prefix_iff_eq_take.mp h).symm

theorem scoped_roundtrip {raw : List Char} (x : Scoped)
    (hstop : x.span.stop = x.span.start + x.text.length)
    (hpre : x.text <+: raw.drop x.span.start) :
    listExtract raw x.span.start x.span.stop = x.text := by
  rw [hstop]
  exact listExtract_eq hpre

theorem scanScope_spec (header : List Char) (pos : Nat) (sc : Scoped) (next : Nat)
    (h : scanScope header pos = some (some sc, next)) :
    sc.span.stop = sc.span.start + sc.text.length ∧
      sc.text <+: header.drop sc.span.start := by
  simp only [scanScope] at h
  split at h
  · split at h
    · injection h with h
      injection h with h1 h2
      injection h1 with h1
      subst h1
      exact ⟨rfl, List.takeWhile_prefix _⟩
    · exact absurd h (by simp)
  · injection h with h
    injection h with h1 h2
    exact absurd h1 (by simp)

theorem scanDescription_spec (header : List Char) (pos : Nat) (d : Scoped)
    (h : scanDescription header pos = some d) :
    d.span.stop = d.span.start + d.text.length ∧
      d.text <+: header.drop d.span.start := by
  simp only [scanDescription] at h
  split at h
  · injection h with h
    subst h
    rename_i tail heq
    have hlen : header.length - pos = tail.length + 2 := by
      have := congrArg List.length heq
      simpa [List.length_drop] using this
    constructor
    · simp only [List.length_drop]
      omega
    · exact ⟨[], List.append_nil _⟩
  · exact absurd h (by simp)

theorem fallbackCommit_roundtrip (raw header : List Char) (body : Option (List Char))
    (hH : header <+: raw) :
    (∀ t, (fallbackCommit raw header body).type_ = some t →
      listExtract raw t.span.start t.span.stop = t.text) ∧
    (∀ s, (fallbackCommit raw header body).scope = some s →
      listExtract raw s.span.start s.span.stop = s.text) ∧
    listExtract raw (fallbackCommit raw header body).description.span.start
        (fallbackCommit raw header body).description.span.stop
      = (fallbackCommit raw header body).description.text := by
  refine ⟨?_, ?_, ?_⟩
  · intro t ht
    exact absurd ht (by simp [fallbackCommit])
  · intro s hs
    exact absurd hs (by simp [fallbackCommit])
  · exact scoped_roundtrip ⟨header, ⟨0, header.length⟩⟩ (Nat.zero_add _).symm
      (by simpa using hH)

theorem assembleDesc_roundtrip (raw header ty : List Char) (scopeOpt : Option Scoped)
    (breaking : Bool) (afterBang : Nat) (body : Option (List Char))
    (hH : header <+: raw) (hty : ty <+: header)
    (hsc : ∀ sc, scopeOpt = some sc →
      sc.span.stop = sc.span.start + sc.text.length ∧
        sc.text <+: header.drop sc.span.start) :
    (∀ t, (assembleDesc raw header ty scopeOpt breaking afterBang body).type_ = some t →
      listExtract raw t.span.start t.span.stop = t.text) ∧
    (∀ s, (assembleDesc raw header ty scopeOpt breaking afterBang body).scope = some s →
      listExtract raw s.span.start s.span.stop = s.text) ∧
    listExtract raw
        (assembleDesc raw header ty scopeOpt breaking afterBang body).description.span.start
        (assembleDesc raw header ty scopeOpt breaking afterBang body).description.span.stop
      = (assembleDesc raw header ty scopeOpt breaking afterBang body).description.text := by
  unfold assembleDesc
  split
  · rename_i desc hdesc
    obtain ⟨hdstop, hdpre⟩ := scanDescription_spec header afterBang desc hdesc
    refine ⟨?_, ?_, ?_⟩
    · intro t ht
      injection ht with ht
      subst ht
      exact scoped_roundtrip ⟨ty, ⟨0, ty.length⟩⟩ (Nat.zero_add _).symm
        (by simpa using hty.trans hH)
    · intro s hs
      cases scopeOpt with
      | none => cases hs
      | some sc =>
        obtain ⟨hstop, hpre⟩ := hsc sc rfl
        injection hs with hs
        rw [← hs]
        exact scoped_roundtrip sc hstop (hpre.trans (front_drop _ hH))
    · exact scoped_roundtrip desc hdstop (hdpre.trans (front_drop _ hH))
  · exact fallbackCommit_roundtrip raw header body hH

theorem assemble_roundtrip (raw header ty : List Char) (body : Option (List Char))
    (hH : header <+: raw) (hty : ty <+: header) :
    (∀ t, (assemble raw header ty body).type_ = some t →
      listExtract raw t.span.start t.span.stop = t.text) ∧
    (∀ s, (assemble raw header ty body).scope = some s →
      listExtract raw s.span.start s.span.stop = s.text) ∧
    listExtract raw (assemble raw header ty body).description.span.start
        (assemble raw header ty body).description.span.stop
      = (assemble raw header ty body).description.text := by
  unfold assemble
  split
  · rename_i scopeOpt afterScope hscan
    have hsc : ∀ sc, scopeOpt = some sc →
        sc.span.stop = sc.span.start + sc.text.length ∧
          sc.text <+: header.drop sc.span.start := by
      intro sc hsceq
      refine scanScope_spec header ty.length sc afterScope ?_
      rw [hsceq] at hscan
      exact hscan
    split
    · exact assembleDesc_roundtrip raw header ty scopeOpt true (afterScope + 1) body hH hty hsc
    · exact assembleDesc_roundtrip raw header ty scopeOpt false afterScope body hH hty hsc
  · exact fallbackCommit_roundtrip raw header body hH

/-! ### Theorems for the claims -/

/-- C9: span round-trip — for every `Scoped` value produced by
`parse_commit` on any raw message (the `type_`, `scope` and `description`
tokens), slicing the raw message from the span's start offset to its end
offset yields exactly the stored token text. -/
theorem parse_commit_span_roundtrip (raw : List Char) :
    (∀ t, (parse_commit raw).type_ = some t →
      listExtract raw t.span.start t.span.stop = t.text) ∧
    (∀ s, (parse_commit raw).scope = some s →
      listExtract raw s.span.start s.span.stop = s.text) ∧
    listExtract raw (parse_commit raw).description.span.start
        (parse_commit raw).description.span.stop
      = (parse_commit raw).description.text := by
  unfold parse_commit
  exact assemble_roundtrip raw _ _ _ (List.takeWhile_prefix _)
    (List.takeWhile_prefix _)

/-- C9 witness: on the fixed demo message, the scope span `(5, 9)` slices
back to `"nice"` and the description span `(12, 28)` to
`"add cool feature"`. -/
theorem parse_commit_span_roundtrip_witness :
    listExtract commit_message 5 9 = "nice".toList ∧
      listExtract commit_message 12 28 = "add cool feature".toList :=
  ⟨(parse_commit_span_roundtrip commit_message).2.1 ⟨"nice".toList, ⟨5, 9⟩⟩ rfl,
   (parse_commit_span_roundtrip commit_message).2.2⟩

/-- C1: for a commit whose scope is present and options whose severity is
not `Off`, `rule_scope_enum` returns `None` iff (`Always` and the scope is
in the allowed values) or (`Never` and it is not); in all other such cases
it returns `Some` diagnostic (`Option` being `none` or `some`). -/
theorem scope_enum_none_iff (commit : Commit) (scope : Scoped)
    (sev : Severity) (cond : Condition) (scopes : List (List Char))
    (hscope : commit.scope = some scope) (hsev : sev ≠ Severity.Off) :
    rule_scope_enum commit (sev, cond, scopes) = none ↔
      ((cond = Condition.Always ∧ scope.text ∈ scopes) ∨
       (cond = Condition.Never ∧ scope.text ∉ scopes)) := by
  simp only [rule_scope_enum, hscope]
  rw [if_neg hsev]
  cases cond <;> by_cases hm : scope.text ∈ scopes <;>
    simp [contains_eq_mem_decide, hm]

/-- C1 witness: scenario 2 — scope `"nice"` with `(Error, Always,
["nice","fix"])` yields no diagnostic. -/
theorem scope_enum_none_iff_witness :
    rule_scope_enum (parse_commit commit_message)
      (Severity.Error, Condition.Always, ["nice".toList, "fix".toList]) = none :=
  (scope_enum_none_iff (parse_commit commit_message) ⟨"nice".toList, ⟨5, 9⟩⟩
      Severity.Error Condition.Always ["nice".toList, "fix".toList]
      rfl (by decide)).mpr (Or.inl ⟨rfl, by decide⟩)

/-- C2: whatever the commit, `Off` severity makes `rule_scope_enum` return
`None` — the rule is skipped entirely. -/
theorem scope_enum_off_silent (commit : Commit)
    (cond : Condition) (scopes : List (List Char)) :
    rule_scope_enum commit (Severity.Off, cond, scopes) = none := by
  simp [rule_scope_enum]

/-- C4: a commit without a scope yields no diagnostic for any severity,
condition and allowed values — absence is vacuously valid. -/
theorem scope_enum_absent_vacuous (commit : Commit) (opts : ScopeEnumOpts)
    (h : commit.scope = none) :
    rule_scope_enum commit opts = none := by
  obtain ⟨sev, cond, scopes⟩ := opts
  simp [rule_scope_enum, h]

/-- C4 witness: scenario 5 — `"feat: add feature"` has no scope, and the
scope-enum rule with `condition = Always` produces no diagnostic. -/
theorem scope_enum_absent_vacuous_witness :
    rule_scope_enum (parse_commit ("feat: add feature").toList)
      (Severity.Error, Condition.Always, ["fix".toList]) = none :=
  scope_enum_absent_vacuous (parse_commit ("feat: add feature").toList)
    (Severity.Error, Condition.Always, ["fix".toList]) rfl

/-- C5: every diagnostic emitted by `rule_scope_enum` has help text
`"scope must" ++ (" not" when Never, "" when Always) ++ " be one of " ++`
the allowed values joined by `", "`. -/
theorem scope_enum_help_text (commit : Commit) (sev : Severity) (cond : Condition)
    (scopes : List (List Char)) (r : Report)
    (h : rule_scope_enum commit (sev, cond, scopes) = some r) :
    r.help = "scope must".toList ++
      (if cond = Condition.Never then " not".toList else []) ++
      " be one of ".toList ++ joinSep ", ".toList scopes := by
  simp only [rule_scope_enum] at h
  split at h
  · exact absurd h (by simp)
  · split at h
    · split at h
      · injection h with h
        subst h
        cases cond <;> rfl
      · exact absurd h (by simp)
    · exact absurd h (by simp)

/-- C5 witness: scenario 3 — allowed values `["fix","chore"]` with
condition `Always` give help text exactly
`"scope must be one of fix, chore"`. -/
theorem scope_enum_help_text_witness :
    (rule_scope_enum (parse_commit commit_message)
        (Severity.Error, Condition.Always, ["fix".toList, "chore".toList])).map Report.help
      = some ("scope must be one of fix, chore").toList := by
  obtain ⟨r, hr⟩ : ∃ r, rule_scope_enum (parse_commit commit_message)
      (Severity.Error, Condition.Always, ["fix".toList, "chore".toList]) = some r :=
    ⟨_, rfl⟩
  rw [hr]
  exact congrArg some
    ((scope_enum_help_text (parse_commit commit_message) Severity.Error
        Condition.Always ["fix".toList, "chore".toList] r hr).trans (by decide))

/-- C6: an emitted diagnostic's severity is mapped 1:1 from the configured
severity (`Warning` → warning, `Error` → error), and the `Off` arm of the
mapping (which would yield `Advice`) is unreachable: a diagnostic is never
emitted with configured severity `Off`, and never carries `Advice`. -/
theorem scope_enum_severity_map (commit : Commit) (sev : Severity) (cond : Condition)
    (scopes : List (List Char)) (r : Report)
    (h : rule_scope_enum commit (sev, cond, scopes) = some r) :
    (sev = Severity.Warning → r.severity = MietteSeverity.Warning) ∧
    (sev = Severity.Error → r.severity = MietteSeverity.Error) ∧
    sev ≠ Severity.Off ∧ r.severity ≠ MietteSeverity.Advice := by
  by_cases hsev : sev = Severity.Off
  · subst hsev
    simp [rule_scope_enum] at h
  · simp only [rule_scope_enum, if_neg hsev] at h
    split at h
    · split at h
      · injection h with h
        subst h
        refine ⟨fun hw => ?_, fun he => ?_, hsev, ?_⟩
        · subst hw; rfl
        · subst he; rfl
        · cases sev with
          | Off => exact absurd rfl hsev
          | Warning => exact fun hadv => MietteSeverity.noConfusion hadv
          | Error => exact fun hadv => MietteSeverity.noConfusion hadv
      · exact absurd h (by simp)
    · exact absurd h (by simp)

/-- C6 witness: with configured severity `Warning` the emitted diagnostic
carries warning severity, and it is never `Advice`. -/
theorem scope_enum_severity_map_witness :
    (rule_scope_enum (parse_commit commit_message)
        (Severity.Warning, Condition.Always, ["fix".toList])).map Report.severity
      = some MietteSeverity.Warning := by
  obtain ⟨r, hr⟩ : ∃ r, rule_scope_enum (parse_commit commit_message)
      (Severity.Warning, Condition.Always, ["fix".toList]) = some r := ⟨_, rfl⟩
  rw [hr]
  exact congrArg some
    ((scope_enum_severity_map (parse_commit commit_message) Severity.Warning
        Condition.Always ["fix".toList] r hr).1 rfl)

/-- C7: rule evaluation is deterministic — two applications of
`rule_scope_enum` to the same `(commit, opts)` pair yield the same result:
the same `none`, or diagnostics with identical severity, message, help,
code, url and labeled spans. -/
theorem rule_scope_enum_deterministic (c₁ c₂ : Commit) (o₁ o₂ : ScopeEnumOpts)
    (hc : c₁ = c₂) (ho : o₁ = o₂) :
    rule_scope_enum c₁ o₁ = rule_scope_enum c₂ o₂ := by
  rw [hc, ho]

/-- C7 witness: determinism at the fixed demo commit and options. -/
theorem rule_scope_enum_deterministic_witness :
    rule_scope_enum (parse_commit commit_message)
        (Severity.Error, Condition.Always, ["fix".toList])
      = rule_scope_enum (parse_commit commit_message)
        (Severity.Error, Condition.Always, ["fix".toList]) :=
  rule_scope_enum_deterministic (parse_commit commit_message)
    (parse_commit commit_message)
    (Severity.Error, Condition.Always, ["fix".toList])
    (Severity.Error, Condition.Always, ["fix".toList]) rfl rfl

/-- C8: every diagnostic emitted by `rule_scope_enum` carries exactly one
labeled span, and it is exactly the scope field's span (start to end
offset in the raw message). -/
theorem scope_enum_label_span (commit : Commit) (scope : Scoped)
    (sev : Severity) (cond : Condition) (scopes : List (List Char)) (r : Report)
    (hscope : commit.scope = some scope)
    (h : rule_scope_enum commit (sev, cond, scopes) = some r) :
    r.labels = [⟨scope.span.start, scope.span.stop, "not allowed scope".toList⟩] := by
  simp only [rule_scope_enum, hscope] at h
  split at h
  · exact absurd h (by simp)
  · split at h
    · injection h with h
      subst h
      rfl
    · exact absurd h (by simp)

/-- C8 witness: the diagnostic for scope `"nice"` carries the single label
spanning offsets 5 to 9 of the raw message. -/
theorem scope_enum_label_span_witness :
    (rule_scope_enum (parse_commit commit_message)
        (Severity.Error, Condition.Always, ["fix".toList])).map Report.labels
      = some [⟨5, 9, "not allowed scope".toList⟩] := by
  obtain ⟨r, hr⟩ : ∃ r, rule_scope_enum (parse_commit commit_message)
      (Severity.Error, Condition.Always, ["fix".toList]) = some r := ⟨_, rfl⟩
  rw [hr]
  exact congrArg some
    (scope_enum_label_span (parse_commit commit_message) ⟨"nice".toList, ⟨5, 9⟩⟩
      Severity.Error Condition.Always ["fix".toList] r rfl hr)

/-- C10: membership is exact string equality against the allowed values —
a scope whose text is not literally in the list (for instance differing
only in letter case or by surrounding whitespace) is not a member: with
severity not `Off`, condition `Always` yields a diagnostic and condition
`Never` yields none. -/
theorem scope_enum_exact_membership (commit : Commit) (scope : Scoped)
    (sev : Severity) (cond : Condition) (scopes : List (List Char))
    (hscope : commit.scope = some scope) (hsev : sev ≠ Severity.Off)
    (hmem : scope.text ∉ scopes) :
    (cond = Condition.Always →
      (rule_scope_enum commit (sev, cond, scopes)).isSome = true) ∧
    (cond = Condition.Never →
      rule_scope_enum commit (sev, cond, scopes) = none) := by
  constructor
  · intro hc
    subst hc
    simp only [rule_scope_enum, hscope]
    rw [if_neg hsev]
    simp [contains_eq_mem_decide, hmem]
  · intro hc
    subst hc
    simp only [rule_scope_enum, hscope]
    rw [if_neg hsev]
    simp [contains_eq_mem_decide, hmem]

/-- C10 witness: scope `"Fix"` against allowed values `["fix"]` — equal
only up to letter case — is not a member: `Always` produces a diagnostic
and `Never` produces none. -/
theorem scope_enum_exact_membership_witness :
    (rule_scope_enum (parse_commit ("feat(Fix): x").toList)
        (Severity.Error, Condition.Always, ["fix".toList])).isSome = true ∧
    rule_scope_enum (parse_commit ("feat(Fix): x").toList)
        (Severity.Error, Condition.Never, ["fix".toList]) = none :=
  ⟨(scope_enum_exact_membership (parse_commit ("feat(Fix): x").toList)
      ⟨"Fix".toList, ⟨5, 8⟩⟩ Severity.Error Condition.Always ["fix".toList]
      rfl (by decide) (by decide)).1 rfl,
   (scope_enum_exact_membership (parse_commit ("feat(Fix): x").toList)
      ⟨"Fix".toList, ⟨5, 8⟩⟩ Severity.Error Condition.Never ["fix".toList]
      rfl (by decide) (by decide)).2 rfl⟩

/-- C3 counterexample: with options `(Warning, Always, ["fix"])` the sole
diagnostic produced for the fixed commit message has Warning severity —
so there is no Error-severity diagnostic — and yet `main` returns `Err`,
exiting with a failure code. This refutes the claim that Warning-severity
diagnostics do not affect the exit code. -/
theorem main_warning_affects_exit :
    (rule_scope_enum (parse_commit commit_message)
        (Severity.Warning, Condition.Always, ["fix".toList])).map Report.severity
      = some MietteSeverity.Warning ∧
    exitsSuccessfully (Severity.Warning, Condition.Always, ["fix".toList]) = false := by
  constructor
  · rfl
  · rfl

/-- C3 (amended): the CLI wrapper exits successfully exactly when
`rule_scope_enum` returns no diagnostic; any diagnostic — Warning-severity
as well as Error-severity — makes the process exit with a failure code. -/
theorem main_exit_iff_no_diagnostic (opts : ScopeEnumOpts) :
    exitsSuccessfully opts = true ↔
      rule_scope_enum (parse_commit commit_message) opts = none := by
  unfold exitsSuccessfully main_result
  cases h : rule_scope_enum (parse_commit commit_message) opts <;> simp [h]

end Commitlint
